import Mathlib

/-!
Verification of the sublime-cli decorator layer (src/sublime/cli/decorator.py).

The development embeds the three decorators of that file — echo_result,
handle_exceptions and pass_api_client — together with the pieces of the
standard library they lean on (os.path.splitext, os.path.basename, str.strip)
and, modelled from the specification, the JSON formatter used for responses.
-/

namespace Sublime

-- Model of the opaque structured result objects returned by the remote
-- service: JSON-like trees.  Numbers are modelled as integers.  Arrays and
-- objects are given by a mutual inductive family so that all recursion over
-- values is structural.
mutual
inductive JsonValue : Type where
  | null : JsonValue
  | bool (b : Bool) : JsonValue
  | num (n : Int) : JsonValue
  | str (s : String) : JsonValue
  | arr (items : JsonArray) : JsonValue
  | obj (members : JsonObject) : JsonValue

inductive JsonArray : Type where
  | nil : JsonArray
  | cons (head : JsonValue) (tail : JsonArray) : JsonArray

inductive JsonObject : Type where
  | nil : JsonObject
  | cons (key : String) (value : JsonValue) (tail : JsonObject) : JsonObject
end

/-- The decimal digit characters, as produced when serializing integers. -/
def digitChar (d : Nat) : Char :=
  match d with
  | 0 => '0' | 1 => '1' | 2 => '2' | 3 => '3' | 4 => '4'
  | 5 => '5' | 6 => '6' | 7 => '7' | 8 => '8' | _ => '9'

/-- Big-endian decimal digits of a natural number (the digits of str(n)). -/
def natChars (n : Nat) : List Char :=
  if n < 10 then [digitChar n]
  else natChars (n / 10) ++ [digitChar (n % 10)]
termination_by n
decreasing_by
  exact Nat.div_lt_self (by omega) (by omega)

/-- Decimal rendering of an integer, as Python str() produces it. -/
def intStr : Int → String
  | Int.ofNat n => String.mk (natChars n)
  | Int.negSucc m => String.mk ('-' :: natChars (m + 1))

/-- Escape the body of a JSON string (quote and backslash) and close the
quote: the serialized form of string contents. -/
def escAppend : List Char → List Char
  | [] => ['"']
  | c :: r => if c = '"' ∨ c = '\\' then '\\' :: c :: escAppend r else c :: escAppend r

/-- Serialized form of a JSON string, opening quote included. -/
def serString (s : String) : List Char := '"' :: escAppend s.data

-- Modelled from the spec: the JSON formatter of sublime/cli/formatter.py is
-- not part of the fragment; the spec states only that formatting a response as
-- JSON and re-parsing it yields a structurally equivalent object.  We model it
-- as a standard JSON serializer over the response model.
mutual
/-- Modelled from the spec: serialized form of a JSON value. -/
def serValue : JsonValue → List Char
  | .null => "null".data
  | .bool true => "true".data
  | .bool false => "false".data
  | .num (Int.ofNat n) => natChars n
  | .num (Int.negSucc m) => '-' :: natChars (m + 1)
  | .str s => serString s
  | .arr l => '[' :: serItems l
  | .obj m => '{' :: serMems m

def serItems : JsonArray → List Char
  | .nil => [']']
  | .cons v .nil => serValue v ++ [']']
  | .cons v (.cons w t) => serValue v ++ ',' :: serItems (.cons w t)

def serMems : JsonObject → List Char
  | .nil => ['}']
  | .cons k v .nil => serString k ++ ':' :: (serValue v ++ ['}'])
  | .cons k v (.cons k2 w t) =>
      serString k ++ ':' :: (serValue v ++ ',' :: serMems (.cons k2 w t))
end

/-- The JSON formatter: render a response value as a JSON text. -/
def jsonFormat (v : JsonValue) : String := String.mk (serValue v)

/-- Does the character stream start with a decimal digit? -/
def headDigit : List Char → Bool
  | [] => false
  | c :: _ => c.isDigit

/-- Does the character stream start with the given character? -/
def headIs (c : Char) : List Char → Bool
  | [] => false
  | x :: _ => x == c

/-- Numeric value of a decimal digit character. -/
def digitVal (c : Char) : Nat := c.toNat - 48

/-- Consume a maximal run of decimal digits, folding them onto an
accumulator. -/
def parseNatAux (acc : Nat) : List Char → Nat × List Char
  | [] => (acc, [])
  | c :: r => cond c.isDigit (parseNatAux (acc * 10 + digitVal c) r) (acc, c :: r)

/-- Parse a decimal natural number (at least one digit). -/
def parseNat (l : List Char) : Option (Nat × List Char) :=
  cond (headDigit l) (some (parseNatAux 0 l)) none

/-- Parse the body of a JSON string after the opening quote: a backslash
takes the following character literally, an unescaped quote ends the body. -/
def parseStringBody : List Char → Option (List Char × List Char)
  | [] => none
  | c :: r =>
    cond (c == '"') (some ([], r))
      (cond (c == '\\')
        (match r with
         | [] => none
         | d :: r2 => (parseStringBody r2).map (fun p => (d :: p.1, p.2)))
        ((parseStringBody r).map (fun p => (c :: p.1, p.2))))

/-- Parsing modes of the recursive-descent JSON reader: a single value, the
items of an array up to the closing bracket, or the members of an object up
to the closing brace. -/
inductive PMode : Type where
  | value : PMode
  | elems : PMode
  | members : PMode

/-- Results of the three parsing modes. -/
inductive POut : Type where
  | pv (v : JsonValue) (rest : List Char) : POut
  | pa (l : JsonArray) (rest : List Char) : POut
  | po (m : JsonObject) (rest : List Char) : POut

/-- One step of the value parser, parameterized by the continuation parsers
for array items and object members. -/
def parseValueStep (pe pm : List Char → Option POut) (input : List Char) : Option POut :=
  match input with
  | [] => none
  | c :: r =>
    cond c.isDigit
      (match parseNat (c :: r) with
       | some p => some (.pv (.num (p.1 : Int)) p.2)
       | none => none)
      (match c :: r with
       | 'n' :: 'u' :: 'l' :: 'l' :: r2 => some (.pv .null r2)
       | 't' :: 'r' :: 'u' :: 'e' :: r2 => some (.pv (.bool true) r2)
       | 'f' :: 'a' :: 'l' :: 's' :: 'e' :: r2 => some (.pv (.bool false) r2)
       | '"' :: r2 =>
         (match parseStringBody r2 with
          | some p => some (.pv (.str (String.mk p.1)) p.2)
          | none => none)
       | '-' :: r2 =>
         (match parseNat r2 with
          | some p => some (.pv (.num (-(p.1 : Int))) p.2)
          | none => none)
       | '[' :: r2 =>
         (match pe r2 with
          | some (.pa l r3) => some (.pv (.arr l) r3)
          | _ => none)
       | '{' :: r2 =>
         (match pm r2 with
          | some (.po m r3) => some (.pv (.obj m) r3)
          | _ => none)
       | _ => none)

/-- After an array item: a comma continues with the remaining items, a
closing bracket ends the array. -/
def elemsCont (pe : List Char → Option POut) (v : JsonValue) : List Char → Option POut
  | ',' :: r2 =>
    (match pe r2 with
     | some (.pa l r3) => some (.pa (.cons v l) r3)
     | _ => none)
  | ']' :: r2 => some (.pa (.cons v .nil) r2)
  | _ => none

/-- One step of the array-items parser, parameterized by the continuation
parsers for a value and for the remaining items. -/
def parseElemsStep (pv pe : List Char → Option POut) (input : List Char) : Option POut :=
  cond (headIs ']' input)
    (some (.pa .nil input.tail))
    (match pv input with
     | some (.pv v r) => elemsCont pe v r
     | _ => none)

/-- After an object value: a comma continues with the remaining members, a
closing brace ends the object. -/
def memsAfter (pm : List Char → Option POut) (k : List Char) (v : JsonValue) :
    List Char → Option POut
  | ',' :: r5 =>
    (match pm r5 with
     | some (.po m r6) => some (.po (.cons (String.mk k) v m) r6)
     | _ => none)
  | '}' :: r5 => some (.po (.cons (String.mk k) v .nil) r5)
  | _ => none

/-- After an object key: a colon is followed by the member value. -/
def memsColon (pv pm : List Char → Option POut) (k : List Char) :
    List Char → Option POut
  | ':' :: r3 =>
    (match pv r3 with
     | some (.pv v r4) => memsAfter pm k v r4
     | _ => none)
  | _ => none

/-- One step of the object-members parser, parameterized by the continuation
parsers for a value and for the remaining members. -/
def parseMembersStep (pv pm : List Char → Option POut) (input : List Char) : Option POut :=
  cond (headIs '}' input)
    (some (.po .nil input.tail))
    (match input with
     | '"' :: r =>
       (match parseStringBody r with
        | some (k, r2) => memsColon pv pm k r2
        | none => none)
     | _ => none)

/-- Modelled from the spec: recursive-descent JSON reader (the re-parsing
half of the round-trip property).  Fuel bounds the recursion depth and is
structurally decreasing. -/
def parseJ : PMode → Nat → List Char → Option POut
  | _, 0, _ => none
  | .value, Nat.succ f, input => parseValueStep (parseJ .elems f) (parseJ .members f) input
  | .elems, Nat.succ f, input => parseElemsStep (parseJ .value f) (parseJ .elems f) input
  | .members, Nat.succ f, input => parseMembersStep (parseJ .value f) (parseJ .members f) input

/-- Modelled from the spec: parse a JSON text back into a value, requiring
the whole input to be consumed. -/
def jsonParse (s : String) : Option JsonValue :=
  match parseJ .value (s.data.length + 1) s.data with
  | some (.pv v []) => some v
  | _ => none

-- Fuel needed by the reader to reconstruct a value: one unit per parser
-- entry, with sibling branches sharing fuel through max.
mutual
/-- Fuel sufficient to parse a serialized value. -/
def jfuel : JsonValue → Nat
  | .null => 1
  | .bool _ => 1
  | .num _ => 1
  | .str _ => 1
  | .arr l => 1 + fitems l
  | .obj m => 1 + fmems m

/-- Fuel sufficient to parse serialized array items. -/
def fitems : JsonArray → Nat
  | .nil => 1
  | .cons v .nil => 1 + jfuel v
  | .cons v (.cons w t) => 1 + jfuel v + fitems (.cons w t)

/-- Fuel sufficient to parse serialized object members. -/
def fmems : JsonObject → Nat
  | .nil => 1
  | .cons _ v .nil => 1 + jfuel v
  | .cons _ v (.cons k2 w t) => 1 + jfuel v + fmems (.cons k2 w t)
end

-- ======================================================================
-- The decorator layer of src/sublime/cli/decorator.py.
-- ======================================================================

/-- Lookup of a key in a JSON object, as Python dict subscription finds it. -/
def objLookup (k : String) : JsonObject → Option JsonValue
  | .nil => none
  | .cons k2 v t => if k2 = k then some v else objLookup k t

-- Python repr() of a JSON-like value (single-quoted strings, True/False/None),
-- used by str() on containers.
mutual
/-- Python repr of a value. -/
def pyRepr : JsonValue → String
  | .null => "None"
  | .bool true => "True"
  | .bool false => "False"
  | .num i => intStr i
  | .str s => "\x27" ++ s ++ "\x27"
  | .arr l => "[" ++ pyReprItems l ++ "]"
  | .obj m => "\x7b" ++ pyReprMems m ++ "\x7d"

/-- Python repr of array elements, comma separated. -/
def pyReprItems : JsonArray → String
  | .nil => ""
  | .cons v .nil => pyRepr v
  | .cons v (.cons w t) => pyRepr v ++ ", " ++ pyReprItems (.cons w t)

/-- Python repr of object members, comma separated. -/
def pyReprMems : JsonObject → String
  | .nil => ""
  | .cons k v .nil => "\x27" ++ k ++ "\x27: " ++ pyRepr v
  | .cons k v (.cons k2 w t) =>
      "\x27" ++ k ++ "\x27: " ++ pyRepr v ++ ", " ++ pyReprMems (.cons k2 w t)
end

/-- Python str() of a value: the raw contents for a string, repr otherwise. -/
def pyStr : JsonValue → String
  | .str s => s
  | v => pyRepr v

/-- Exceptions that the wrapped subcommand call can raise: RequestFailure
(sublime.exceptions) with its args tuple, RequestException
(requests.exceptions) rendered to its message, or any other exception. -/
inductive PyExc : Type where
  | requestFailure (args : List JsonValue) : PyExc
  | requestException (msg : String) : PyExc
  | other (excName : String) : PyExc

/-- Outcome of the handle_exceptions wrapper: the result is passed through,
or the exception is converted to a logged message plus context.exit(-1), or
an exception escapes the wrapper unhandled (this includes IndexError,
KeyError and TypeError raised by the handler itself on a malformed
RequestFailure payload). -/
inductive HandledOutcome : Type where
  | ok (result : JsonValue) : HandledOutcome
  | logExit (message : String) (code : Int) : HandledOutcome
  | uncaught (excName : String) : HandledOutcome

/-- Embedding of handle_exceptions (decorator.py lines 63-89): the wrapped
call either returns a result or raises; RequestFailure reads
exception.args[1] and its "detail" entry (raising IndexError, TypeError or
KeyError itself when the payload does not have that shape), RequestException
is formatted directly; both log "API error: ..." and exit(-1); every other
exception propagates. -/
def handle_exceptions (call : Except PyExc JsonValue) : HandledOutcome :=
  match call with
  | .ok r => .ok r
  | .error (.requestFailure args) =>
    match args[1]? with
    | none => .uncaught "IndexError"
    | some body =>
      match body with
      | .obj members =>
        match objLookup "detail" members with
        | none => .uncaught "KeyError"
        | some d => .logExit ("API error: " ++ pyStr d) (-1)
      | _ => .uncaught "TypeError"
  | .error (.requestException msg) => .logExit ("API error: " ++ msg) (-1)
  | .error (.other excName) => .uncaught excName

/-- The two output formats accepted by the format option. -/
inductive OutputFormat : Type where
  | json : OutputFormat
  | txt : OutputFormat
deriving DecidableEq

/-- The two subcommands wired through these decorators. -/
inductive CommandName : Type where
  | enrich : CommandName
  | analyze : CommandName
deriving DecidableEq

/-- The FORMATTERS table of sublime/cli/formatter.py (not part of the
fragment): an arbitrary JSON formatter and, for "txt", one formatter per
subcommand, each taking the result and the verbose flag. -/
structure Formatters : Type where
  json : JsonValue → Bool → String
  txt : CommandName → JsonValue → Bool → String

/-- FORMATTERS[output_format], then the per-command entry when the txt
formatter dictionary was selected (decorator.py lines 37-40). -/
def selectFormatter (fmts : Formatters) (fmt : OutputFormat) (cmd : CommandName) :
    JsonValue → Bool → String :=
  match fmt with
  | .json => fmts.json
  | .txt => fmts.txt cmd

/-- The click parameters of the enrich/analyze commands that echo_result and
pass_api_client read.  output_file is None when the -o option was not given,
otherwise the (opened) file's name; verbose is absent for these commands, so
params.get("verbose", False) yields false. -/
structure Params : Type where
  api_key : Option String
  input_file_name : String
  output_file : Option String
  output_format : OutputFormat
  verbose : Option Bool
deriving DecidableEq

/-- Where a piece of output is written: standard output, the file opened for
the -o option, or a file newly created by name by echo_result. -/
inductive Target : Type where
  | stdout : Target
  | providedFile (file : String) : Target
  | createdFile (file : String) : Target
deriving DecidableEq

/-- Python str.strip("\n"): remove newline characters from both ends. -/
def pyStripNewlines (s : String) : String :=
  String.mk (((s.data.dropWhile (fun c => c == '\n')).reverse.dropWhile
    (fun c => c == '\n')).reverse)

/-- Removal of leading newline characters only. -/
def stripLeadingNewlines (s : String) : String :=
  String.mk (s.data.dropWhile (fun c => c == '\n'))

/-- Removal of trailing newline characters only. -/
def stripTrailingNewlines (s : String) : String :=
  String.mk ((s.data.reverse.dropWhile (fun c => c == '\n')).reverse)

/-- Not a dot (extension separator). -/
def notDot (c : Char) : Bool := !(c == '.')

/-- Not a slash (path separator). -/
def notSep (c : Char) : Bool := !(c == '/')

/-- os.path.basename: everything after the last slash. -/
def basename (p : String) : String :=
  String.mk ((p.data.reverse.takeWhile notSep).reverse)

/-- os.path.splitext: split off the extension at the last dot, provided it
lies after the last slash and the component before it is not all dots (a
dotfile has no extension).  Computed on the reversed character list: the
reversed text before the first reversed dot is the candidate extension. -/
def splitext (p : String) : String × String :=
  let r := p.data.reverse
  let a := r.takeWhile notDot
  match r.dropWhile notDot with
  | [] => (p, "")
  | _ :: b =>
    if '/' ∈ a then (p, "")
    else if (b.takeWhile notSep).all (fun c => c == '.') then (p, "")
    else (String.mk b.reverse, String.mk ('.' :: a.reverse))

/-- First component of os.path.splitext: the path with its extension
stripped. -/
def splitextFst (p : String) : String := (splitext p).1

/-- The derived default output file name of echo_result (decorator.py lines
49-52): splitext, then basename, then the fixed ".mdm" suffix. -/
def derivedName (input_file_relative_name : String) : String :=
  let input_file_relative_no_ext := splitextFst input_file_relative_name
  let input_file_name_no_ext := basename input_file_relative_no_ext
  input_file_name_no_ext ++ ".mdm"

/-- Target of the first click.echo: params.get("output_file", ...) is None
when -o was not given (stdout), else the opened output file. -/
def firstTarget : Option String → Target
  | none => Target.stdout
  | some f => Target.providedFile f

/-- Embedding of echo_result (decorator.py lines 21-60) on a successful
result: the list of (target, text) writes it performs, in order.  The first
write is the selected formatter's output, stripped with str.strip("\n"), to
the output file or stdout; for "enrich" with no output file a second,
JSON-formatted copy goes to the derived ".mdm" file. -/
def echo_result (fmts : Formatters) (cmd : CommandName) (p : Params)
    (result : JsonValue) : List (Target × String) :=
  let formatter := selectFormatter fmts p.output_format cmd
  let output := pyStripNewlines (formatter result (p.verbose.getD false))
  let first := (firstTarget p.output_file, output)
  if cmd = CommandName.enrich ∧ p.output_file = none then
    let output_file_name := derivedName p.input_file_name
    let output2 := pyStripNewlines (fmts.json result (p.verbose.getD false))
    [first, (Target.createdFile output_file_name, output2)]
  else [first]

/-- The persisted configuration as load_config returns it: its "api_key"
entry, where None and the empty string are both falsy. -/
structure Config : Type where
  api_key : Option String
deriving DecidableEq

/-- Python falsiness of config["api_key"]: None or the empty string. -/
def pyFalsy : Option String → Bool
  | none => true
  | some s => s == ""

/-- Key resolution of pass_api_client (decorator.py lines 103-124): an
explicitly passed key wins; otherwise the configuration key is used unless
it is falsy, in which case resolution fails. -/
def pass_api_client (apiKeyParam : Option String) (config : Config) : Option String :=
  match apiKeyParam with
  | some k => some k
  | none => if pyFalsy config.api_key then none else config.api_key

/-- The exact message echoed by pass_api_client when no API key is found,
with the {!r}-formatted program name substituted. -/
def apiKeyNotFoundMessage (progName : String) : String :=
  "\nError: API key not found.\n\n" ++
  "To fix this problem, please use any of the following methods " ++
  "(in order of precedence):\n" ++
  "- Pass it using the -k/--api-key option.\n" ++
  "- Set it in the SUBLIME_API_KEY environment variable.\n" ++
  "- Run " ++ ("\x27" ++ (progName ++ " setup") ++ "\x27") ++
  " to save it to the configuration file.\n"

/-- Observable outcome of one full command invocation through the decorator
chain pass_api_client, echo_result, handle_exceptions. -/
structure RunOutcome : Type where
  clientConstructed : Bool
  apiCalls : Nat
  logs : List String
  writes : List (Target × String)
  exitCode : Option Int
  uncaught : Option String
deriving DecidableEq

/-- Embedding of one invocation of an enrich/analyze command: pass_api_client
resolves the key (echoing an error and exiting -1 before any client is
constructed when it cannot), then the api call runs once under
handle_exceptions, and echo_result prints the successful result.
context.exit raises, so on any handled failure no output is written. -/
def runCommand (fmts : Formatters) (cmd : CommandName) (progName : String)
    (p : Params) (config : Config) (call : String → Except PyExc JsonValue) :
    RunOutcome :=
  match pass_api_client p.api_key config with
  | none =>
    { clientConstructed := false, apiCalls := 0, logs := [],
      writes := [(Target.stdout, apiKeyNotFoundMessage progName)],
      exitCode := some (-1), uncaught := none }
  | some key =>
    match handle_exceptions (call key) with
    | .ok result =>
      { clientConstructed := true, apiCalls := 1, logs := [],
        writes := echo_result fmts cmd p result,
        exitCode := none, uncaught := none }
    | .logExit msg code =>
      { clientConstructed := true, apiCalls := 1, logs := [msg],
        writes := [], exitCode := some code, uncaught := none }
    | .uncaught e =>
      { clientConstructed := true, apiCalls := 1, logs := [],
        writes := [], exitCode := none, uncaught := some e }

/-- The reversed-list core of splitextFst: what splitext keeps, computed on
the reversed character data. -/
def sefstRev (r : List Char) : List Char :=
  let a := r.takeWhile notDot
  match r.dropWhile notDot with
  | [] => r
  | _ :: b =>
    if '/' ∈ a then r
    else if (b.takeWhile notSep).all (fun c => c == '.') then r
    else b

-- Unfolding equations for one fuel step of the reader.
theorem parseJ_value_succ (f : Nat) (input : List Char) :
    parseJ .value (f + 1) input =
      parseValueStep (parseJ .elems f) (parseJ .members f) input := rfl

theorem parseJ_elems_succ (f : Nat) (input : List Char) :
    parseJ .elems (f + 1) input =
      parseElemsStep (parseJ .value f) (parseJ .elems f) input := rfl

theorem parseJ_members_succ (f : Nat) (input : List Char) :
    parseJ .members (f + 1) input =
      parseMembersStep (parseJ .value f) (parseJ .members f) input := rfl

theorem parseValueStep_digit (pe pm : List Char → Option POut) (c : Char)
    (x : List Char) (h : c.isDigit = true) :
    parseValueStep pe pm (c :: x) =
      (match parseNat (c :: x) with
       | some p => some (.pv (.num (p.1 : Int)) p.2)
       | none => none) := by
  simp only [parseValueStep]
  rw [h]
  rfl

theorem parseElemsStep_go (pv pe : List Char → Option POut) (input : List Char)
    (h : headIs ']' input = false) :
    parseElemsStep pv pe input =
      (match pv input with
       | some (.pv v r) => elemsCont pe v r
       | _ => none) := by
  simp only [parseElemsStep]
  rw [h]
  rfl

theorem elemsCont_comma (pe : List Char → Option POut) (v : JsonValue) (x : List Char) :
    elemsCont pe v (',' :: x) =
      (match pe x with
       | some (.pa l r3) => some (.pa (.cons v l) r3)
       | _ => none) := rfl

theorem elemsCont_rbracket (pe : List Char → Option POut) (v : JsonValue) (x : List Char) :
    elemsCont pe v (']' :: x) = some (.pa (.cons v .nil) x) := rfl

theorem parseMembersStep_go (pv pm : List Char → Option POut) (x : List Char) :
    parseMembersStep pv pm ('"' :: x) =
      (match parseStringBody x with
       | some (k, r2) => memsColon pv pm k r2
       | none => none) := rfl

theorem memsColon_colon (pv pm : List Char → Option POut) (k : List Char) (x : List Char) :
    memsColon pv pm k (':' :: x) =
      (match pv x with
       | some (.pv v r4) => memsAfter pm k v r4
       | _ => none) := rfl

theorem memsAfter_comma (pm : List Char → Option POut) (k : List Char) (v : JsonValue)
    (x : List Char) :
    memsAfter pm k v (',' :: x) =
      (match pm x with
       | some (.po m r6) => some (.po (.cons (String.mk k) v m) r6)
       | _ => none) := rfl

theorem memsAfter_rbrace (pm : List Char → Option POut) (k : List Char) (v : JsonValue)
    (x : List Char) :
    memsAfter pm k v ('}' :: x) = some (.po (.cons (String.mk k) v .nil) x) := rfl

theorem jfuel_pos (v : JsonValue) : 1 ≤ jfuel v := by
  cases v <;> simp [jfuel]

theorem fitems_pos (l : JsonArray) : 1 ≤ fitems l := by
  cases l with
  | nil => simp [fitems]
  | cons v t => cases t <;> simp only [fitems] <;> omega

theorem fmems_pos (m : JsonObject) : 1 ≤ fmems m := by
  cases m with
  | nil => simp [fmems]
  | cons k v t => cases t <;> simp only [fmems] <;> omega

theorem digitChar_isDigit (d : Nat) : (digitChar d).isDigit = true := by
  unfold digitChar
  split <;> decide

theorem digitChar_bne_rbracket (d : Nat) : (digitChar d == ']') = false := by
  unfold digitChar
  split <;> decide

theorem digitVal_digitChar (d : Nat) (h : d < 10) : digitVal (digitChar d) = d := by
  interval_cases d <;> decide

theorem natChars_head (n : Nat) :
    ∃ d t, d < 10 ∧ natChars n = digitChar d :: t := by
  induction n using Nat.strong_induction_on with
  | h n ih =>
    rw [natChars.eq_def]
    by_cases h : n < 10
    · exact ⟨n, [], h, by rw [if_pos h]⟩
    · rw [if_neg h]
      obtain ⟨d, t, hd, ht⟩ := ih (n / 10) (Nat.div_lt_self (by omega) (by omega))
      exact ⟨d, t ++ [digitChar (n % 10)], hd, by rw [ht]; rfl⟩

theorem headDigit_natChars (n : Nat) (l : List Char) :
    headDigit (natChars n ++ l) = true := by
  obtain ⟨d, t, _, ht⟩ := natChars_head n
  rw [ht]
  show (digitChar d).isDigit = true
  exact digitChar_isDigit d

theorem natChars_length_pos (n : Nat) : 1 ≤ (natChars n).length := by
  obtain ⟨d, t, _, ht⟩ := natChars_head n
  rw [ht]
  simp

theorem parseNatAux_cons_digit (acc : Nat) (c : Char) (l : List Char)
    (h : c.isDigit = true) :
    parseNatAux acc (c :: l) = parseNatAux (acc * 10 + digitVal c) l := by
  rw [parseNatAux.eq_def]
  dsimp only
  rw [h]
  rfl

theorem parseNatAux_stop (acc : Nat) (l : List Char) (h : headDigit l = false) :
    parseNatAux acc l = (acc, l) := by
  cases l with
  | nil => rfl
  | cons c r =>
    have hc : c.isDigit = false := h
    rw [parseNatAux.eq_def]
    dsimp only
    rw [hc]
    rfl

theorem parseNatAux_natChars : ∀ (n acc : Nat) (l : List Char),
    parseNatAux acc (natChars n ++ l) =
      parseNatAux (acc * 10 ^ (natChars n).length + n) l
  | n, acc, l => by
    rw [natChars.eq_def]
    by_cases h : n < 10
    · rw [if_pos h, List.singleton_append,
        parseNatAux_cons_digit acc (digitChar n) l (digitChar_isDigit n),
        digitVal_digitChar n h]
      simp only [List.length_singleton, pow_one]
    · rw [if_neg h, List.append_assoc, List.singleton_append,
        parseNatAux_natChars (n / 10) acc (digitChar (n % 10) :: l),
        parseNatAux_cons_digit _ (digitChar (n % 10)) l (digitChar_isDigit (n % 10)),
        digitVal_digitChar (n % 10) (Nat.mod_lt n (by omega))]
      have harg : (acc * 10 ^ (natChars (n / 10)).length + n / 10) * 10 + n % 10 =
          acc * 10 ^ (natChars (n / 10) ++ [digitChar (n % 10)]).length + n := by
        rw [List.length_append, List.length_singleton, pow_succ]
        have hmod : n / 10 * 10 + n % 10 = n := by omega
        calc (acc * 10 ^ (natChars (n / 10)).length + n / 10) * 10 + n % 10
            = acc * (10 ^ (natChars (n / 10)).length * 10) +
              (n / 10 * 10 + n % 10) := by ring
          _ = acc * (10 ^ (natChars (n / 10)).length * 10) + n := by rw [hmod]
      rw [harg]
  termination_by n _ _ => n
  decreasing_by exact Nat.div_lt_self (by omega) (by omega)

theorem parseNat_natChars (n : Nat) (rest : List Char)
    (h : headDigit rest = false) :
    parseNat (natChars n ++ rest) = some (n, rest) := by
  unfold parseNat
  rw [headDigit_natChars n rest]
  show some (parseNatAux 0 (natChars n ++ rest)) = _
  rw [parseNatAux_natChars n 0 rest]
  simp only [Nat.zero_mul, Nat.zero_add]
  rw [parseNatAux_stop n rest h]

theorem parseStringBody_quote (r : List Char) :
    parseStringBody ('"' :: r) = some ([], r) := by
  rw [parseStringBody.eq_def]
  rfl

theorem parseStringBody_backslash (d : Char) (r : List Char) :
    parseStringBody ('\\' :: d :: r) =
      (parseStringBody r).map (fun p => (d :: p.1, p.2)) := by
  rw [parseStringBody.eq_def]
  rfl

theorem parseStringBody_other (c : Char) (r : List Char)
    (h1 : (c == '"') = false) (h2 : (c == '\\') = false) :
    parseStringBody (c :: r) =
      (parseStringBody r).map (fun p => (c :: p.1, p.2)) := by
  rw [parseStringBody.eq_def]
  dsimp only
  rw [h1, h2]
  rfl

theorem parseStringBody_escAppend (s : List Char) (rest : List Char) :
    parseStringBody (escAppend s ++ rest) = some (s, rest) := by
  induction s with
  | nil =>
    rw [show escAppend [] ++ rest = '"' :: rest from rfl]
    exact parseStringBody_quote rest
  | cons c tl ih =>
    by_cases h : c = '"' ∨ c = '\\'
    · rw [escAppend, if_pos h]
      simp only [List.cons_append]
      rw [parseStringBody_backslash, ih]
      rfl
    · push_neg at h
      rw [escAppend, if_neg (by tauto)]
      simp only [List.cons_append]
      rw [parseStringBody_other c _ (beq_eq_false_iff_ne.mpr h.1)
        (beq_eq_false_iff_ne.mpr h.2), ih]
      rfl

theorem headIs_rbracket_serValue (v : JsonValue) (l : List Char) :
    headIs ']' (serValue v ++ l) = false := by
  cases v with
  | null => rfl
  | bool b => cases b <;> rfl
  | num n =>
    cases n with
    | ofNat m =>
      show headIs ']' (natChars m ++ l) = false
      obtain ⟨d, t, _, ht⟩ := natChars_head m
      rw [ht]
      show (digitChar d == ']') = false
      exact digitChar_bne_rbracket d
    | negSucc m => rfl
  | str s => rfl
  | arr items => rfl
  | obj members => rfl

theorem headDigit_comma (l : List Char) : headDigit (',' :: l) = false := rfl

theorem headDigit_rbracket (l : List Char) : headDigit (']' :: l) = false := rfl

theorem headDigit_rbrace (l : List Char) : headDigit ('}' :: l) = false := rfl

theorem string_mk_data (s : String) : String.mk s.data = s := by
  cases s
  rfl

-- The round-trip of the JSON reader against the serializer, proved for all
-- three parsing modes simultaneously by induction on fuel.
theorem parse_ser (f : Nat) :
    (∀ v rest, jfuel v ≤ f → headDigit rest = false →
      parseJ .value f (serValue v ++ rest) = some (.pv v rest)) ∧
    (∀ l rest, fitems l ≤ f →
      parseJ .elems f (serItems l ++ rest) = some (.pa l rest)) ∧
    (∀ m rest, fmems m ≤ f →
      parseJ .members f (serMems m ++ rest) = some (.po m rest)) := by
  induction f with
  | zero =>
    refine ⟨fun v rest hf _ => ?_, fun l rest hf => ?_, fun m rest hf => ?_⟩
    · exact absurd hf (by have := jfuel_pos v; omega)
    · exact absurd hf (by have := fitems_pos l; omega)
    · exact absurd hf (by have := fmems_pos m; omega)
  | succ f ih =>
    obtain ⟨ihv, iha, ihm⟩ := ih
    refine ⟨fun v rest hf hrest => ?_, fun l rest hf => ?_, fun m rest hf => ?_⟩
    · rw [parseJ_value_succ]
      cases v with
      | null => exact rfl
      | bool b => cases b <;> exact rfl
      | num n =>
        cases n with
        | ofNat m =>
          show parseValueStep _ _ (natChars m ++ rest) = _
          obtain ⟨d, t, _, ht⟩ := natChars_head m
          rw [ht, List.cons_append,
            parseValueStep_digit _ _ (digitChar d) (t ++ rest) (digitChar_isDigit d),
            ← List.cons_append, ← ht, parseNat_natChars m rest hrest]
          rfl
        | negSucc m =>
          show parseValueStep _ _ (('-' :: natChars (m + 1)) ++ rest) = _
          rw [List.cons_append]
          show (match parseNat (natChars (m + 1) ++ rest) with
            | some p => some (POut.pv (JsonValue.num (-(p.1 : Int))) p.2)
            | none => none) = _
          rw [parseNat_natChars (m + 1) rest hrest]
          show some (POut.pv (JsonValue.num (-((m + 1 : Nat) : Int))) rest) = _
          have hneg : (-((m + 1 : Nat) : Int)) = Int.negSucc m := by
            rw [Int.negSucc_eq]
            push_cast
            ring
          rw [hneg]
      | str s =>
        show parseValueStep _ _ ('"' :: (escAppend s.data ++ rest)) = _
        show (match parseStringBody (escAppend s.data ++ rest) with
          | some p => some (POut.pv (JsonValue.str (String.mk p.1)) p.2)
          | none => none) = _
        rw [parseStringBody_escAppend s.data rest]
      | arr l =>
        have hfl : fitems l ≤ f := by
          simp only [jfuel] at hf
          omega
        show parseValueStep _ _ ('[' :: (serItems l ++ rest)) = _
        show (match parseJ .elems f (serItems l ++ rest) with
          | some (.pa l2 r3) => some (POut.pv (JsonValue.arr l2) r3)
          | _ => none) = _
        rw [iha l rest hfl]
      | obj m =>
        have hfm : fmems m ≤ f := by
          simp only [jfuel] at hf
          omega
        show parseValueStep _ _ ('{' :: (serMems m ++ rest)) = _
        show (match parseJ .members f (serMems m ++ rest) with
          | some (.po m2 r3) => some (POut.pv (JsonValue.obj m2) r3)
          | _ => none) = _
        rw [ihm m rest hfm]
    · rw [parseJ_elems_succ]
      cases l with
      | nil => exact rfl
      | cons v t =>
        cases t with
        | nil =>
          have hfv : jfuel v ≤ f := by
            simp only [fitems] at hf
            omega
          rw [show serItems (.cons v .nil) ++ rest = serValue v ++ (']' :: rest) from by
            show (serValue v ++ [']']) ++ rest = _
            rw [List.append_assoc, List.singleton_append]]
          rw [parseElemsStep_go _ _ _ (headIs_rbracket_serValue v (']' :: rest)),
            ihv v (']' :: rest) hfv (headDigit_rbracket rest)]
          dsimp only
          rw [elemsCont_rbracket]
        | cons w t2 =>
          have hfv : jfuel v ≤ f := by
            simp only [fitems] at hf
            omega
          have hft : fitems (.cons w t2) ≤ f := by
            simp only [fitems] at hf ⊢
            omega
          rw [show serItems (.cons v (.cons w t2)) ++ rest =
              serValue v ++ (',' :: (serItems (.cons w t2) ++ rest)) from by
            show (serValue v ++ ',' :: serItems (.cons w t2)) ++ rest = _
            rw [List.append_assoc, List.cons_append]]
          rw [parseElemsStep_go _ _ _
              (headIs_rbracket_serValue v (',' :: (serItems (.cons w t2) ++ rest))),
            ihv v (',' :: (serItems (.cons w t2) ++ rest)) hfv (headDigit_comma _)]
          dsimp only
          rw [elemsCont_comma, iha (.cons w t2) rest hft]
    · rw [parseJ_members_succ]
      cases m with
      | nil => exact rfl
      | cons k v t =>
        cases t with
        | nil =>
          have hfv : jfuel v ≤ f := by
            simp only [fmems] at hf
            omega
          rw [show serMems (.cons k v .nil) ++ rest =
              '"' :: (escAppend k.data ++ (':' :: (serValue v ++ ('}' :: rest)))) from by
            show (serString k ++ ':' :: (serValue v ++ ['}'])) ++ rest = _
            rw [List.append_assoc, List.cons_append, List.append_assoc,
              List.singleton_append]
            rfl]
          rw [parseMembersStep_go, parseStringBody_escAppend k.data
            (':' :: (serValue v ++ ('}' :: rest)))]
          dsimp only
          rw [memsColon_colon, ihv v ('}' :: rest) hfv (headDigit_rbrace rest)]
          dsimp only
          rw [memsAfter_rbrace]
        | cons k2 w t2 =>
          have hfv : jfuel v ≤ f := by
            simp only [fmems] at hf
            omega
          have hft : fmems (.cons k2 w t2) ≤ f := by
            simp only [fmems] at hf ⊢
            omega
          rw [show serMems (.cons k v (.cons k2 w t2)) ++ rest =
              '"' :: (escAppend k.data ++
                (':' :: (serValue v ++ (',' :: (serMems (.cons k2 w t2) ++ rest))))) from by
            show (serString k ++ ':' :: (serValue v ++ ',' :: serMems (.cons k2 w t2))) ++ rest = _
            rw [List.append_assoc, List.cons_append, List.append_assoc,
              List.cons_append]
            rfl]
          rw [parseMembersStep_go, parseStringBody_escAppend k.data
            (':' :: (serValue v ++ (',' :: (serMems (.cons k2 w t2) ++ rest))))]
          dsimp only
          rw [memsColon_colon, ihv v (',' :: (serMems (.cons k2 w t2) ++ rest)) hfv
            (headDigit_comma _)]
          dsimp only
          rw [memsAfter_comma, ihm (.cons k2 w t2) rest hft]

-- The fuel bound is dominated by the length of the serialized text.
mutual
theorem jfuel_le_length : ∀ v : JsonValue, jfuel v ≤ (serValue v).length
  | .null => by decide
  | .bool b => by cases b <;> decide
  | .num (Int.ofNat n) => by
      have := natChars_length_pos n
      simp only [jfuel, serValue]
      omega
  | .num (Int.negSucc m) => by simp [jfuel, serValue]
  | .str s => by simp [jfuel, serValue, serString]
  | .arr l => by
      have h := fitems_le_length l
      simp only [jfuel, serValue, List.length_cons]
      omega
  | .obj m => by
      have h := fmems_le_length m
      simp only [jfuel, serValue, List.length_cons]
      omega

theorem fitems_le_length : ∀ l : JsonArray, fitems l ≤ (serItems l).length
  | .nil => by simp [fitems, serItems]
  | .cons v .nil => by
      have h1 := jfuel_le_length v
      simp only [fitems, serItems, List.length_append, List.length_singleton]
      omega
  | .cons v (.cons w t) => by
      have h1 := jfuel_le_length v
      have h2 := fitems_le_length (.cons w t)
      simp only [fitems, serItems, List.length_append, List.length_cons] at h2 ⊢
      omega

theorem fmems_le_length : ∀ m : JsonObject, fmems m ≤ (serMems m).length
  | .nil => by simp [fmems, serMems]
  | .cons k v .nil => by
      have h1 := jfuel_le_length v
      simp only [fmems, serMems, serString, List.length_append, List.length_cons,
        List.length_singleton]
      omega
  | .cons k v (.cons k2 w t) => by
      have h1 := jfuel_le_length v
      have h2 := fmems_le_length (.cons k2 w t)
      simp only [fmems, serMems, serString, List.length_append, List.length_cons] at h2 ⊢
      omega
end

/-- C8: for every response object, formatting it with the JSON formatter and
re-parsing the produced text yields a structurally equivalent (equal) object:
the JSON formatter is lossless. -/
theorem json_roundtrip (v : JsonValue) : jsonParse (jsonFormat v) = some v := by
  have hlen : jfuel v ≤ (serValue v).length + 1 := by
    have := jfuel_le_length v
    omega
  have h := (parse_ser ((serValue v).length + 1)).1 v [] hlen rfl
  rw [List.append_nil] at h
  unfold jsonParse
  rw [show (jsonFormat v).data = serValue v from rfl, h]

-- Generic takeWhile/dropWhile facts used for the path lemmas.
theorem mem_of_mem_takeWhile {α : Type} {p : α → Bool} :
    ∀ {l : List α} {x : α}, x ∈ l.takeWhile p → x ∈ l := by
  intro l
  induction l with
  | nil => intro x h; simp [List.takeWhile] at h
  | cons c r ih =>
    intro x h
    rw [List.takeWhile] at h
    by_cases hc : p c = true
    · rw [hc] at h
      simp only [List.mem_cons] at h ⊢
      rcases h with h | h
      · exact Or.inl h
      · exact Or.inr (ih h)
    · rw [Bool.not_eq_true] at hc
      rw [hc] at h
      simp at h

theorem pred_of_mem_takeWhile {α : Type} {p : α → Bool} :
    ∀ {l : List α} {x : α}, x ∈ l.takeWhile p → p x = true := by
  intro l
  induction l with
  | nil => intro x h; simp [List.takeWhile] at h
  | cons c r ih =>
    intro x h
    rw [List.takeWhile] at h
    by_cases hc : p c = true
    · rw [hc] at h
      simp only [List.mem_cons] at h
      rcases h with h | h
      · rw [h]; exact hc
      · exact ih h
    · rw [Bool.not_eq_true] at hc
      rw [hc] at h
      simp at h

theorem takeWhile_eq_self_of_all {α : Type} {p : α → Bool} :
    ∀ {l : List α}, (∀ x ∈ l, p x = true) → l.takeWhile p = l := by
  intro l
  induction l with
  | nil => intro _; rfl
  | cons c r ih =>
    intro h
    rw [List.takeWhile, h c (by simp)]
    rw [ih (fun x hx => h x (by simp [hx]))]

theorem dropWhile_eq_nil_of_all {α : Type} {p : α → Bool} :
    ∀ {l : List α}, (∀ x ∈ l, p x = true) → l.dropWhile p = [] := by
  intro l
  induction l with
  | nil => intro _; rfl
  | cons c r ih =>
    intro h
    rw [List.dropWhile, h c (by simp)]
    exact ih (fun x hx => h x (by simp [hx]))

theorem all_of_dropWhile_eq_nil {α : Type} {p : α → Bool} :
    ∀ {l : List α}, l.dropWhile p = [] → ∀ x ∈ l, p x = true := by
  intro l
  induction l with
  | nil => intro _ x hx; simp at hx
  | cons c r ih =>
    intro h x hx
    rw [List.dropWhile] at h
    by_cases hc : p c = true
    · rw [hc] at h
      simp only [List.mem_cons] at hx
      rcases hx with hx | hx
      · rw [hx]; exact hc
      · exact ih h x hx
    · rw [Bool.not_eq_true] at hc
      rw [hc] at h
      simp at h

theorem pred_false_of_dropWhile_cons {α : Type} {p : α → Bool} :
    ∀ {l : List α} {c : α} {b : List α}, l.dropWhile p = c :: b → p c = false := by
  intro l
  induction l with
  | nil => intro c b h; simp [List.dropWhile] at h
  | cons x r ih =>
    intro c b h
    rw [List.dropWhile] at h
    by_cases hx : p x = true
    · rw [hx] at h
      exact ih h
    · rw [Bool.not_eq_true] at hx
      rw [hx] at h
      cases h
      exact hx

theorem takeWhile_append_all {α : Type} {p : α → Bool} {l1 : List α}
    (h : ∀ x ∈ l1, p x = true) (l2 : List α) :
    (l1 ++ l2).takeWhile p = l1 ++ l2.takeWhile p := by
  induction l1 with
  | nil => rfl
  | cons c r ih =>
    rw [List.cons_append, List.takeWhile, h c (by simp)]
    rw [ih (fun x hx => h x (by simp [hx]))]
    rfl

theorem dropWhile_append_all {α : Type} {p : α → Bool} {l1 : List α}
    (h : ∀ x ∈ l1, p x = true) (l2 : List α) :
    (l1 ++ l2).dropWhile p = l2.dropWhile p := by
  induction l1 with
  | nil => rfl
  | cons c r ih =>
    rw [List.cons_append, List.dropWhile, h c (by simp)]
    exact ih (fun x hx => h x (by simp [hx]))

theorem takeWhile_append_stop {α : Type} {p : α → Bool} :
    ∀ {l1 : List α}, (∃ y ∈ l1, p y = false) → ∀ l2 : List α,
      (l1 ++ l2).takeWhile p = l1.takeWhile p := by
  intro l1
  induction l1 with
  | nil => intro h; simp at h
  | cons c r ih =>
    intro h l2
    obtain ⟨y, hy, hyp⟩ := h
    rw [List.cons_append, List.takeWhile, List.takeWhile]
    by_cases hc : p c = true
    · have hyr : y ∈ r := by
        simp only [List.mem_cons] at hy
        rcases hy with hy | hy
        · rw [hy] at hyp; rw [hc] at hyp; cases hyp
        · exact hy
      rw [hc, ih ⟨y, hyr, hyp⟩ l2]
    · rw [Bool.not_eq_true] at hc
      rw [hc]

theorem takeWhile_idem {α : Type} {p : α → Bool} (l : List α) :
    (l.takeWhile p).takeWhile p = l.takeWhile p :=
  takeWhile_eq_self_of_all (fun _ hx => pred_of_mem_takeWhile hx)

theorem string_eq_of_data_rev {s t : String} (h : s.data.reverse = t.data.reverse) :
    s = t := by
  have hd : s.data = t.data := by
    have := congrArg List.reverse h
    rwa [List.reverse_reverse, List.reverse_reverse] at this
  cases s
  cases t
  exact congrArg String.mk hd

theorem splitextFst_data_rev (p : String) :
    (splitextFst p).data.reverse = sefstRev p.data.reverse := by
  unfold splitextFst splitext sefstRev
  dsimp only
  cases hd : p.data.reverse.dropWhile notDot with
  | nil =>
    dsimp only
  | cons c b =>
    dsimp only
    by_cases hsep : '/' ∈ p.data.reverse.takeWhile notDot
    · rw [if_pos hsep, if_pos hsep]
    · rw [if_neg hsep, if_neg hsep]
      by_cases hall : ((b.takeWhile notSep).all (fun c => c == '.')) = true
      · rw [if_pos hall, if_pos hall]
      · rw [if_neg hall, if_neg hall]
        show b.reverse.reverse = b
        exact List.reverse_reverse b

theorem basename_data_rev (p : String) :
    (basename p).data.reverse = p.data.reverse.takeWhile notSep := by
  unfold basename
  rw [show (String.mk (p.data.reverse.takeWhile notSep).reverse).data =
    (p.data.reverse.takeWhile notSep).reverse from rfl, List.reverse_reverse]

theorem notSep_dot : notSep '.' = true := rfl

theorem notDot_of_ne {c : Char} (h : ¬c = '.') : notDot c = true := by
  unfold notDot
  rw [beq_eq_false_iff_ne.mpr h]
  rfl

theorem notSep_of_ne {c : Char} (h : ¬c = '/') : notSep c = true := by
  unfold notSep
  rw [beq_eq_false_iff_ne.mpr h]
  rfl

/-- The reversed-list commutation: taking the final path component commutes
with stripping the extension. -/
theorem sefstRev_takeWhile (r : List Char) :
    (sefstRev r).takeWhile notSep = sefstRev (r.takeWhile notSep) := by
  cases hd : r.dropWhile notDot with
  | nil =>
    have hall : ∀ x ∈ r, notDot x = true := all_of_dropWhile_eq_nil hd
    have h1 : sefstRev r = r := by
      unfold sefstRev
      dsimp only
      rw [hd]
    have h2 : (r.takeWhile notSep).dropWhile notDot = [] :=
      dropWhile_eq_nil_of_all (fun x hx => hall x (mem_of_mem_takeWhile hx))
    have h3 : sefstRev (r.takeWhile notSep) = r.takeWhile notSep := by
      unfold sefstRev
      dsimp only
      rw [h2]
    rw [h1, h3]
  | cons c b =>
    have hr : r.takeWhile notDot ++ c :: b = r := by
      rw [← hd, List.takeWhile_append_dropWhile]
    have hc : c = '.' := by
      have := pred_false_of_dropWhile_cons hd
      unfold notDot at this
      simpa using this
    have haDot : ∀ x ∈ r.takeWhile notDot, notDot x = true :=
      fun x hx => pred_of_mem_takeWhile hx
    by_cases hsep : '/' ∈ r.takeWhile notDot
    · have h1 : sefstRev r = r := by
        unfold sefstRev
        dsimp only
        rw [hd]
        dsimp only
        rw [if_pos hsep]
      have h2 : r.takeWhile notSep = (r.takeWhile notDot).takeWhile notSep := by
        conv_lhs => rw [← hr]
        exact takeWhile_append_stop ⟨'/', hsep, rfl⟩ (c :: b)
      have h3 : (r.takeWhile notSep).dropWhile notDot = [] := by
        rw [h2]
        exact dropWhile_eq_nil_of_all
          (fun x hx => haDot x (mem_of_mem_takeWhile hx))
      have h4 : sefstRev (r.takeWhile notSep) = r.takeWhile notSep := by
        unfold sefstRev
        dsimp only
        rw [h3]
      rw [h1, h4]
    · have haSep : ∀ x ∈ r.takeWhile notDot, notSep x = true := by
        intro x hx
        refine notSep_of_ne (fun hxe => hsep ?_)
        rw [← hxe]
        exact hx
      have h2 : r.takeWhile notSep =
          r.takeWhile notDot ++ '.' :: b.takeWhile notSep := by
        conv_lhs => rw [← hr]
        rw [hc, takeWhile_append_all haSep, List.takeWhile, notSep_dot]
      have htD : (r.takeWhile notDot ++ '.' :: b.takeWhile notSep).takeWhile notDot =
          r.takeWhile notDot := by
        rw [takeWhile_append_all haDot]
        rw [show List.takeWhile notDot ('.' :: b.takeWhile notSep) = [] from rfl,
          List.append_nil]
      have hdD : (r.takeWhile notDot ++ '.' :: b.takeWhile notSep).dropWhile notDot =
          '.' :: b.takeWhile notSep := by
        rw [dropWhile_append_all haDot]
        rfl
      have hidem : (b.takeWhile notSep).takeWhile notSep = b.takeWhile notSep :=
        takeWhile_idem b
      by_cases hall : ((b.takeWhile notSep).all (fun c => c == '.')) = true
      · have h1 : sefstRev r = r := by
          unfold sefstRev
          dsimp only
          rw [hd]
          dsimp only
          rw [if_neg hsep, if_pos hall]
        have h3 : sefstRev (r.takeWhile notSep) = r.takeWhile notSep := by
          unfold sefstRev
          dsimp only
          rw [h2, htD, hdD]
          dsimp only
          rw [if_neg hsep, hidem, if_pos hall, ← h2]
        rw [h1, h3]
      · have h1 : sefstRev r = b := by
          unfold sefstRev
          dsimp only
          rw [hd]
          dsimp only
          rw [if_neg hsep, if_neg hall]
        have h3 : sefstRev (r.takeWhile notSep) = b.takeWhile notSep := by
          unfold sefstRev
          dsimp only
          rw [h2, htD, hdD]
          dsimp only
          rw [if_neg hsep, hidem, if_neg hall]
        rw [h1, h3]

/-- Stripping the extension commutes with taking the base name. -/
theorem basename_splitextFst (p : String) :
    basename (splitextFst p) = splitextFst (basename p) := by
  apply string_eq_of_data_rev
  rw [basename_data_rev, splitextFst_data_rev, splitextFst_data_rev, basename_data_rev]
  exact sefstRev_takeWhile p.data.reverse

theorem basename_no_sep (x : String) : '/' ∉ (basename x).data := by
  intro h
  have h2 : '/' ∈ (basename x).data.reverse := List.mem_reverse.mpr h
  rw [basename_data_rev] at h2
  have h3 := pred_of_mem_takeWhile h2
  exact absurd h3 (by decide)

theorem basename_of_no_sep (x : String) (h : '/' ∉ x.data) : basename x = x := by
  apply string_eq_of_data_rev
  rw [basename_data_rev]
  apply takeWhile_eq_self_of_all
  intro y hy
  refine notSep_of_ne (fun he => h ?_)
  rw [← he]
  exact List.mem_reverse.mp hy

theorem basename_idem (x : String) : basename (basename x) = basename x :=
  basename_of_no_sep _ (basename_no_sep x)

theorem data_append (a b : String) : (a ++ b).data = a.data ++ b.data := rfl

theorem derivedName_eq (nm : String) :
    derivedName nm = basename (splitextFst nm) ++ ".mdm" := rfl

/-- The code's derived name agrees with: take the base name of the input,
strip its extension, add ".mdm". -/
theorem derivedName_spec (nm : String) :
    derivedName nm = splitextFst (basename nm) ++ ".mdm" := by
  rw [derivedName_eq, basename_splitextFst]

theorem derivedName_no_sep (nm : String) : '/' ∉ (derivedName nm).data := by
  rw [derivedName_eq]
  intro h
  rw [data_append] at h
  rcases List.mem_append.mp h with h | h
  · exact basename_no_sep _ h
  · exact absurd h (by decide)

theorem derivedName_basename (nm : String) :
    derivedName (basename nm) = derivedName nm := by
  rw [derivedName_eq, derivedName_eq, basename_splitextFst, basename_splitextFst,
    basename_idem]

-- ======================================================================
-- Claim theorems.
-- ======================================================================

/-- C1: for the "enrich" action, for every invocation in which no explicit
output file was given and the remote call succeeds, the runner writes the
result formatted by the selected formatter to standard output AND
additionally writes a JSON-formatted copy of the same result to the derived
default file name, regardless of the primary output format. -/
theorem enrich_dual_write (fmts : Formatters) (progName : String) (p : Params)
    (config : Config) (call : String → Except PyExc JsonValue) (k : String)
    (result : JsonValue)
    (hout : p.output_file = none)
    (hkey : pass_api_client p.api_key config = some k)
    (hcall : call k = Except.ok result) :
    (runCommand fmts .enrich progName p config call).writes =
      [(Target.stdout,
        pyStripNewlines (selectFormatter fmts p.output_format .enrich result
          (p.verbose.getD false))),
       (Target.createdFile (derivedName p.input_file_name),
        pyStripNewlines (fmts.json result (p.verbose.getD false)))] ∧
    (runCommand fmts .enrich progName p config call).exitCode = none := by
  unfold runCommand
  rw [hkey]
  dsimp only
  rw [hcall]
  unfold handle_exceptions
  dsimp only
  unfold echo_result
  rw [hout, if_pos ⟨rfl, rfl⟩]
  exact ⟨rfl, rfl⟩

/-- C1 witness at a concrete invocation. -/
theorem enrich_dual_write_witness :
    (runCommand ⟨fun _ _ => "J\n", fun _ _ _ => "\nT"⟩ CommandName.enrich "sublime"
      ⟨some "KEY", "message.eml", none, OutputFormat.txt, none⟩ ⟨none⟩
      (fun _ => Except.ok JsonValue.null)).writes =
      [(Target.stdout, "T"), (Target.createdFile "message.mdm", "J")] := by
  have h := (enrich_dual_write ⟨fun _ _ => "J\n", fun _ _ _ => "\nT"⟩ "sublime"
    ⟨some "KEY", "message.eml", none, OutputFormat.txt, none⟩ ⟨none⟩
    (fun _ => Except.ok JsonValue.null) "KEY" JsonValue.null rfl rfl rfl).1
  rw [h]
  decide

/-- C2: with no API-key flag and a falsy configuration key, the invocation
echoes a user-facing "API key not found" error, exits with code -1 (nonzero),
constructs no client and attempts no API call. -/
theorem api_key_missing_exit (fmts : Formatters) (cmd : CommandName)
    (progName : String) (p : Params) (config : Config)
    (call : String → Except PyExc JsonValue)
    (hparam : p.api_key = none)
    (hconf : pyFalsy config.api_key = true) :
    (runCommand fmts cmd progName p config call).exitCode = some (-1) ∧
    ((-1 : Int) ≠ 0) ∧
    (runCommand fmts cmd progName p config call).clientConstructed = false ∧
    (runCommand fmts cmd progName p config call).apiCalls = 0 ∧
    (runCommand fmts cmd progName p config call).writes =
      [(Target.stdout, apiKeyNotFoundMessage progName)] ∧
    "API key not found".data <:+: (apiKeyNotFoundMessage progName).data := by
  have hpass : pass_api_client p.api_key config = none := by
    unfold pass_api_client
    rw [hparam, hconf]
    rfl
  unfold runCommand
  rw [hpass]
  refine ⟨rfl, by decide, rfl, rfl, rfl, ?_⟩
  have key : ∀ (a b : String) (l : List Char), l <:+: a.data → l <:+: (a ++ b).data := by
    intro a b l h
    obtain ⟨s, t, hst⟩ := h
    refine ⟨s, t ++ b.data, ?_⟩
    rw [data_append, ← hst]
    simp [List.append_assoc]
  unfold apiKeyNotFoundMessage
  exact key _ _ _ (key _ _ _ (key _ _ _ (key _ _ _ (key _ _ _ (key _ _ _
    (key _ _ _ (by decide)))))))

/-- C2 witness at a concrete invocation. -/
theorem api_key_missing_exit_witness :
    (runCommand ⟨fun _ _ => "J", fun _ _ _ => "T"⟩ CommandName.enrich "sublime"
      ⟨none, "message.eml", none, OutputFormat.txt, none⟩ ⟨some ""⟩
      (fun _ => Except.ok JsonValue.null)).exitCode = some (-1) ∧
    ((-1 : Int) ≠ 0) ∧
    (runCommand ⟨fun _ _ => "J", fun _ _ _ => "T"⟩ CommandName.enrich "sublime"
      ⟨none, "message.eml", none, OutputFormat.txt, none⟩ ⟨some ""⟩
      (fun _ => Except.ok JsonValue.null)).clientConstructed = false ∧
    (runCommand ⟨fun _ _ => "J", fun _ _ _ => "T"⟩ CommandName.enrich "sublime"
      ⟨none, "message.eml", none, OutputFormat.txt, none⟩ ⟨some ""⟩
      (fun _ => Except.ok JsonValue.null)).apiCalls = 0 ∧
    (runCommand ⟨fun _ _ => "J", fun _ _ _ => "T"⟩ CommandName.enrich "sublime"
      ⟨none, "message.eml", none, OutputFormat.txt, none⟩ ⟨some ""⟩
      (fun _ => Except.ok JsonValue.null)).writes =
      [(Target.stdout, apiKeyNotFoundMessage "sublime")] ∧
    "API key not found".data <:+: (apiKeyNotFoundMessage "sublime").data :=
  api_key_missing_exit ⟨fun _ _ => "J", fun _ _ _ => "T"⟩ CommandName.enrich "sublime"
    ⟨none, "message.eml", none, OutputFormat.txt, none⟩ ⟨some ""⟩
    (fun _ => Except.ok JsonValue.null) rfl rfl

/-- C3: when the remote call raises a remote-service failure — a transport
error, or an API error response whose structured body carries the "detail"
message — the runner logs a message containing the detail, exits with the
nonzero code -1, and writes nothing: no output and no derived file. -/
theorem remote_failure_no_output (fmts : Formatters) (cmd : CommandName)
    (progName : String) (p : Params) (config : Config)
    (call : String → Except PyExc JsonValue) (k : String) (d : String)
    (exc : PyExc)
    (hkey : pass_api_client p.api_key config = some k)
    (hcall : call k = Except.error exc)
    (hexc : exc = PyExc.requestException d ∨
      ∃ args fields, exc = PyExc.requestFailure args ∧
        args[1]? = some (JsonValue.obj fields) ∧
        objLookup "detail" fields = some (JsonValue.str d)) :
    (runCommand fmts cmd progName p config call).logs = ["API error: " ++ d] ∧
    d.data <:+: ("API error: " ++ d).data ∧
    (runCommand fmts cmd progName p config call).exitCode = some (-1) ∧
    ((-1 : Int) ≠ 0) ∧
    (runCommand fmts cmd progName p config call).writes = [] := by
  have hinfix : d.data <:+: ("API error: " ++ d).data :=
    ⟨"API error: ".data, [], by rw [data_append, List.append_nil]⟩
  unfold runCommand
  rw [hkey]
  dsimp only
  rw [hcall]
  rcases hexc with hexc | ⟨args, fields, hexc, harg, hdet⟩
  · rw [hexc]
    exact ⟨rfl, hinfix, rfl, by decide, rfl⟩
  · rw [hexc]
    unfold handle_exceptions
    dsimp only
    rw [harg]
    dsimp only
    rw [hdet]
    exact ⟨rfl, hinfix, rfl, by decide, rfl⟩

/-- C3 witness at the spec's example body. -/
theorem remote_failure_no_output_witness :
    (runCommand ⟨fun _ _ => "J", fun _ _ _ => "T"⟩ CommandName.analyze "sublime"
      ⟨some "KEY", "message.eml", none, OutputFormat.txt, none⟩ ⟨none⟩
      (fun _ => Except.error (PyExc.requestFailure [JsonValue.num 502,
        JsonValue.obj (JsonObject.cons "detail" (JsonValue.str "bad file")
          JsonObject.nil)]))).logs = ["API error: " ++ "bad file"] ∧
    ("bad file" : String).data <:+: ("API error: " ++ "bad file").data ∧
    (runCommand ⟨fun _ _ => "J", fun _ _ _ => "T"⟩ CommandName.analyze "sublime"
      ⟨some "KEY", "message.eml", none, OutputFormat.txt, none⟩ ⟨none⟩
      (fun _ => Except.error (PyExc.requestFailure [JsonValue.num 502,
        JsonValue.obj (JsonObject.cons "detail" (JsonValue.str "bad file")
          JsonObject.nil)]))).exitCode = some (-1) ∧
    ((-1 : Int) ≠ 0) ∧
    (runCommand ⟨fun _ _ => "J", fun _ _ _ => "T"⟩ CommandName.analyze "sublime"
      ⟨some "KEY", "message.eml", none, OutputFormat.txt, none⟩ ⟨none⟩
      (fun _ => Except.error (PyExc.requestFailure [JsonValue.num 502,
        JsonValue.obj (JsonObject.cons "detail" (JsonValue.str "bad file")
          JsonObject.nil)]))).writes = [] :=
  remote_failure_no_output ⟨fun _ _ => "J", fun _ _ _ => "T"⟩ CommandName.analyze
    "sublime" ⟨some "KEY", "message.eml", none, OutputFormat.txt, none⟩ ⟨none⟩
    (fun _ => Except.error (PyExc.requestFailure [JsonValue.num 502,
      JsonValue.obj (JsonObject.cons "detail" (JsonValue.str "bad file")
        JsonObject.nil)])) "KEY" "bad file" _ rfl rfl
    (Or.inr ⟨_, _, rfl, rfl, rfl⟩)

/-- C4: for "enrich" with an explicit output file and a successful remote
call, exactly one output is written, to the given file in the selected
format, and no derived file is created. -/
theorem explicit_output_single_write (fmts : Formatters) (progName : String)
    (p : Params) (config : Config) (call : String → Except PyExc JsonValue)
    (k : String) (result : JsonValue) (f : String)
    (hout : p.output_file = some f)
    (hkey : pass_api_client p.api_key config = some k)
    (hcall : call k = Except.ok result) :
    (runCommand fmts .enrich progName p config call).writes =
      [(Target.providedFile f,
        pyStripNewlines (selectFormatter fmts p.output_format .enrich result
          (p.verbose.getD false)))] ∧
    ∀ n s, (Target.createdFile n, s) ∉
      (runCommand fmts .enrich progName p config call).writes := by
  have hw : (runCommand fmts .enrich progName p config call).writes =
      [(Target.providedFile f,
        pyStripNewlines (selectFormatter fmts p.output_format .enrich result
          (p.verbose.getD false)))] := by
    unfold runCommand
    rw [hkey]
    dsimp only
    rw [hcall]
    unfold handle_exceptions
    dsimp only
    unfold echo_result
    rw [hout, if_neg (by simp)]
    rfl
  refine ⟨hw, fun n s hmem => ?_⟩
  rw [hw] at hmem
  simp at hmem

/-- C4 witness at a concrete invocation. -/
theorem explicit_output_single_write_witness :
    (runCommand ⟨fun _ _ => "J", fun _ _ _ => "T\n"⟩ CommandName.enrich "sublime"
      ⟨some "KEY", "message.eml", some "out.mdm", OutputFormat.txt, none⟩ ⟨none⟩
      (fun _ => Except.ok JsonValue.null)).writes =
      [(Target.providedFile "out.mdm", "T")] ∧
    ∀ n s, (Target.createdFile n, s) ∉
      (runCommand ⟨fun _ _ => "J", fun _ _ _ => "T\n"⟩ CommandName.enrich "sublime"
        ⟨some "KEY", "message.eml", some "out.mdm", OutputFormat.txt, none⟩ ⟨none⟩
        (fun _ => Except.ok JsonValue.null)).writes := by
  have h := explicit_output_single_write ⟨fun _ _ => "J", fun _ _ _ => "T\n"⟩
    "sublime" ⟨some "KEY", "message.eml", some "out.mdm", OutputFormat.txt, none⟩
    ⟨none⟩ (fun _ => Except.ok JsonValue.null) "KEY" JsonValue.null "out.mdm"
    rfl rfl rfl
  refine ⟨?_, h.2⟩
  rw [h.1]
  decide

/-- C5 counterexample: for an input path with a directory component, the
derived default name is NOT the input file's name with the extension
stripped plus ".mdm" — the directory part is dropped. -/
theorem default_name_path_cex :
    derivedName "inbox/message.eml" = "message.mdm" ∧
    splitextFst "inbox/message.eml" ++ ".mdm" = "inbox/message.mdm" ∧
    derivedName "inbox/message.eml" ≠ splitextFst "inbox/message.eml" ++ ".mdm" := by
  refine ⟨by decide, by decide, by decide⟩

/-- C5 (amended): for every "enrich" invocation with no explicit output
target, the derived default output file name equals the input file's base
name (directory part dropped) with its extension stripped and the fixed
suffix ".mdm" appended; on "message.eml" that is "message.mdm". -/
theorem default_name_from_basename (fmts : Formatters) (p : Params)
    (result : JsonValue) (hout : p.output_file = none) :
    (∃ out1 out2, echo_result fmts .enrich p result =
      [(Target.stdout, out1),
       (Target.createdFile (splitextFst (basename p.input_file_name) ++ ".mdm"),
        out2)]) ∧
    derivedName "message.eml" = "message.mdm" := by
  refine ⟨⟨pyStripNewlines (selectFormatter fmts p.output_format .enrich result
      (p.verbose.getD false)),
    pyStripNewlines (fmts.json result (p.verbose.getD false)), ?_⟩, by decide⟩
  unfold echo_result
  rw [hout, if_pos ⟨rfl, rfl⟩, ← basename_splitextFst, ← derivedName_eq]
  rfl

/-- C5 witness at a concrete invocation with a directory component. -/
theorem default_name_from_basename_witness :
    (∃ out1 out2, echo_result ⟨fun _ _ => "J", fun _ _ _ => "T"⟩ .enrich
      ⟨some "KEY", "inbox/message.eml", none, OutputFormat.txt, none⟩ JsonValue.null =
      [(Target.stdout, out1),
       (Target.createdFile
         (splitextFst (basename "inbox/message.eml") ++ ".mdm"), out2)]) ∧
    derivedName "message.eml" = "message.mdm" :=
  default_name_from_basename ⟨fun _ _ => "J", fun _ _ _ => "T"⟩
    ⟨some "KEY", "inbox/message.eml", none, OutputFormat.txt, none⟩
    JsonValue.null rfl

/-- C6 counterexample: a remote API error response whose args tuple is too
short is caught but not converted to a logged message plus exit — the
handler itself raises IndexError, which escapes unhandled. -/
theorem two_categories_cex :
    handle_exceptions (Except.error (PyExc.requestFailure [JsonValue.num 502])) =
      HandledOutcome.uncaught "IndexError" := rfl

/-- C6 (amended): transport failures are always converted to a logged
message plus exit -1; API error responses are so converted when args[1] is a
mapping containing "detail" (and only then — see the payload precondition);
every other exception propagates unhandled; and the remote call is never
retried: at most one API call per invocation. -/
theorem handled_exception_categories :
    (∀ msg, handle_exceptions (Except.error (PyExc.requestException msg)) =
      HandledOutcome.logExit ("API error: " ++ msg) (-1)) ∧
    (∀ args fields d, args[1]? = some (JsonValue.obj fields) →
      objLookup "detail" fields = some d →
      handle_exceptions (Except.error (PyExc.requestFailure args)) =
        HandledOutcome.logExit ("API error: " ++ pyStr d) (-1)) ∧
    (∀ excName, handle_exceptions (Except.error (PyExc.other excName)) =
      HandledOutcome.uncaught excName) ∧
    (∀ fmts cmd progName p config call,
      (runCommand fmts cmd progName p config call).apiCalls ≤ 1) := by
  refine ⟨fun msg => rfl, fun args fields d h1 h2 => ?_, fun excName => rfl, ?_⟩
  · unfold handle_exceptions
    dsimp only
    rw [h1]
    dsimp only
    rw [h2]
  · intro fmts cmd progName p config call
    unfold runCommand
    split
    · simp
    · split <;> simp

/-- C6 witness: the well-formed API-error conversion at a concrete payload. -/
theorem handled_exception_categories_witness :
    handle_exceptions (Except.error (PyExc.requestFailure [JsonValue.num 502,
      JsonValue.obj (JsonObject.cons "detail" (JsonValue.str "bad file")
        JsonObject.nil)])) =
      HandledOutcome.logExit ("API error: " ++ pyStr (JsonValue.str "bad file"))
        (-1) :=
  handled_exception_categories.2.1
    [JsonValue.num 502, JsonValue.obj (JsonObject.cons "detail"
      (JsonValue.str "bad file") JsonObject.nil)]
    (JsonObject.cons "detail" (JsonValue.str "bad file") JsonObject.nil)
    (JsonValue.str "bad file") rfl rfl

/-- C7 counterexample: with a formatter output carrying a leading newline,
the written string is stripped at BOTH ends, so it is not the formatter's
output stripped of trailing newline characters only. -/
theorem strip_trailing_cex :
    echo_result ⟨fun _ _ => "\nA\n", fun _ _ _ => "\nA\n"⟩ CommandName.analyze
        ⟨none, "in.eml", some "out.txt", OutputFormat.txt, none⟩ JsonValue.null =
      [(Target.providedFile "out.txt", "A")] ∧
    stripTrailingNewlines "\nA\n" = "\nA" ∧
    ("A" : String) ≠ "\nA" := by
  refine ⟨by decide, by decide, by decide⟩

/-- C7 (amended): every string echo_result writes is the corresponding
formatter output stripped of leading AND trailing newline characters. -/
theorem written_strings_stripped (fmts : Formatters) (cmd : CommandName)
    (p : Params) (result : JsonValue) :
    ∀ pr ∈ echo_result fmts cmd p result,
      pr.2 = stripTrailingNewlines (stripLeadingNewlines
        (selectFormatter fmts p.output_format cmd result (p.verbose.getD false))) ∨
      pr.2 = stripTrailingNewlines (stripLeadingNewlines
        (fmts.json result (p.verbose.getD false))) := by
  have key : ∀ s, pyStripNewlines s =
      stripTrailingNewlines (stripLeadingNewlines s) := fun s => rfl
  intro pr hpr
  unfold echo_result at hpr
  by_cases hc : cmd = CommandName.enrich ∧ p.output_file = none
  · rw [if_pos hc] at hpr
    simp only [List.mem_cons, List.not_mem_nil, or_false] at hpr
    rcases hpr with hpr | hpr
    · left
      rw [hpr, key]
    · right
      rw [hpr, key]
  · rw [if_neg hc] at hpr
    simp only [List.mem_cons, List.not_mem_nil, or_false] at hpr
    left
    rw [hpr, key]

/-- C7 witness at a concrete write. -/
theorem written_strings_stripped_witness :
    (Target.providedFile "o", ("T" : String)).2 =
      stripTrailingNewlines (stripLeadingNewlines
        (selectFormatter ⟨fun _ _ => "J", fun _ _ _ => "T"⟩ OutputFormat.txt
          CommandName.analyze JsonValue.null ((none : Option Bool).getD false))) ∨
    (Target.providedFile "o", ("T" : String)).2 =
      stripTrailingNewlines (stripLeadingNewlines
        ((fun (_ : JsonValue) (_ : Bool) => ("J" : String)) JsonValue.null
          ((none : Option Bool).getD false))) :=
  written_strings_stripped ⟨fun _ _ => "J", fun _ _ _ => "T"⟩ CommandName.analyze
    ⟨none, "in.eml", some "o", OutputFormat.txt, none⟩ JsonValue.null
    (Target.providedFile "o", "T") (by decide)

/-- C9: the logged-message-plus-nonzero-exit conversion of a remote API
error holds exactly for payloads where args[1] exists and is a mapping
containing "detail"; for a short args tuple the handler raises IndexError,
for a mapping without "detail" it raises KeyError, and these escape it. -/
theorem handler_payload_precondition :
    (∀ args : List JsonValue, args.length ≤ 1 →
      handle_exceptions (Except.error (PyExc.requestFailure args)) =
        HandledOutcome.uncaught "IndexError") ∧
    (∀ args fields, args[1]? = some (JsonValue.obj fields) →
      objLookup "detail" fields = none →
      handle_exceptions (Except.error (PyExc.requestFailure args)) =
        HandledOutcome.uncaught "KeyError") ∧
    (∀ args fields d, args[1]? = some (JsonValue.obj fields) →
      objLookup "detail" fields = some d →
      handle_exceptions (Except.error (PyExc.requestFailure args)) =
        HandledOutcome.logExit ("API error: " ++ pyStr d) (-1)) := by
  refine ⟨fun args h => ?_, fun args fields h1 h2 => ?_, fun args fields d h1 h2 => ?_⟩
  · unfold handle_exceptions
    dsimp only
    rw [List.getElem?_eq_none h]
  · unfold handle_exceptions
    dsimp only
    rw [h1]
    dsimp only
    rw [h2]
  · unfold handle_exceptions
    dsimp only
    rw [h1]
    dsimp only
    rw [h2]

/-- C9 witness: the three payload shapes at concrete inputs. -/
theorem handler_payload_precondition_witness :
    handle_exceptions (Except.error (PyExc.requestFailure [])) =
      HandledOutcome.uncaught "IndexError" ∧
    handle_exceptions (Except.error (PyExc.requestFailure [JsonValue.num 502,
      JsonValue.obj JsonObject.nil])) = HandledOutcome.uncaught "KeyError" ∧
    handle_exceptions (Except.error (PyExc.requestFailure [JsonValue.num 502,
      JsonValue.obj (JsonObject.cons "detail" (JsonValue.str "bad file")
        JsonObject.nil)])) =
      HandledOutcome.logExit ("API error: " ++ pyStr (JsonValue.str "bad file"))
        (-1) :=
  ⟨handler_payload_precondition.1 [] (by decide),
   handler_payload_precondition.2.1 [JsonValue.num 502, JsonValue.obj JsonObject.nil]
     JsonObject.nil rfl rfl,
   handler_payload_precondition.2.2
     [JsonValue.num 502, JsonValue.obj (JsonObject.cons "detail"
       (JsonValue.str "bad file") JsonObject.nil)]
     (JsonObject.cons "detail" (JsonValue.str "bad file") JsonObject.nil)
     (JsonValue.str "bad file") rfl rfl⟩

/-- C10: the derived default ".mdm" name contains only the base name of the
input path — it has no directory separator, and it is unchanged when the
input's directory part is dropped — so the dual-write JSON copy is created
in the current working directory, not in the input file's directory. -/
theorem derived_name_cwd (fmts : Formatters) (p : Params) (result : JsonValue)
    (hout : p.output_file = none) :
    ('/' ∉ (derivedName p.input_file_name).data) ∧
    derivedName p.input_file_name = derivedName (basename p.input_file_name) ∧
    ∃ out1 out2, echo_result fmts .enrich p result =
      [(Target.stdout, out1),
       (Target.createdFile (derivedName p.input_file_name), out2)] := by
  refine ⟨derivedName_no_sep _, (derivedName_basename _).symm,
    pyStripNewlines (selectFormatter fmts p.output_format .enrich result
      (p.verbose.getD false)),
    pyStripNewlines (fmts.json result (p.verbose.getD false)), ?_⟩
  unfold echo_result
  rw [hout, if_pos ⟨rfl, rfl⟩]
  rfl

/-- C10 witness at a concrete invocation with a directory component. -/
theorem derived_name_cwd_witness :
    ('/' ∉ (derivedName "inbox/message.eml").data) ∧
    derivedName "inbox/message.eml" = derivedName (basename "inbox/message.eml") ∧
    ∃ out1 out2, echo_result ⟨fun _ _ => "J", fun _ _ _ => "T"⟩ .enrich
      ⟨some "KEY", "inbox/message.eml", none, OutputFormat.txt, none⟩
      JsonValue.null =
      [(Target.stdout, out1),
       (Target.createdFile (derivedName "inbox/message.eml"), out2)] :=
  derived_name_cwd ⟨fun _ _ => "J", fun _ _ _ => "T"⟩
    ⟨some "KEY", "inbox/message.eml", none, OutputFormat.txt, none⟩
    JsonValue.null rfl

end Sublime

